import Mathlib

/-!
Verification development for the persistent interval store of the
timewarrior time-tracking tool (`src/Database.cpp` and its collaborators).

The store is shallowly embedded: `Database.cpp` is translated function by
function; the collaborator classes that are only declared elsewhere
(`Datafile`, `Range`, `Interval`, `TagInfoDatabase`, `Journal`) are
modelled from the specification, as marked in their doc comments.

A `Datetime` is modelled as a month index (years times 12 plus the
0-based month) together with a second offset within that month; the
lexicographic order on those two fields agrees with the epoch order of
the calendar library, and `Datetime (y, m, 1)` in the C++ source is the
model value with offset 0.  The 0-epoch sentinel (1970-01-01T00:00:00)
is month index 23640 with offset 0.
-/

namespace Timew

/-- A wall-clock instant: month index (`year * 12 + month - 1`) and
second offset within the month. -/
structure Datetime where
  mi : Nat
  off : Nat
deriving DecidableEq

/-- The 0-epoch sentinel, 1970-01-01T00:00:00: used as the "open end"
marker throughout timewarrior. -/
def epoch0 : Datetime := ⟨23640, 0⟩

/-- Strict order on instants (the order of `Datetime::operator<`,
i.e. epoch order). -/
def dlt (a b : Datetime) : Bool :=
  a.mi < b.mi || (a.mi = b.mi && a.off < b.off)

/-- Non-strict order on instants. -/
def dle (a b : Datetime) : Bool :=
  a.mi < b.mi || (a.mi = b.mi && a.off ≤ b.off)

/-- A half-open time range `[start, stop)`; `stop = epoch0` denotes an
open-ended range.  Models the C++ `Range` class (the field `end` of the
source is called `stop` here because `end` is a Lean keyword). -/
structure Rng where
  start : Datetime
  stop : Datetime
deriving DecidableEq

/-- Modelled from the spec: a `Range` is open-ended iff its end is the
0-epoch sentinel (spec section 3, "Range"). -/
def Rng.isOpen (r : Rng) : Bool := r.stop = epoch0

/-- Modelled from the spec: `startsWithin(other)` is true iff
`self.start ∈ [other.start, other.end)` (spec section 3, "Range";
`Range.cpp` is not part of the sources). -/
def Rng.startsWithin (self other : Rng) : Bool :=
  dle other.start self.start && dlt self.start other.stop

/-- Modelled from the spec: `intersects` is standard half-open overlap
(spec section 3), with a 0-epoch end treated as open-ended, i.e. as
extending indefinitely (spec section 3, "Range"). -/
def Rng.intersects (a b : Rng) : Bool :=
  (b.isOpen || dlt a.start b.stop) && (a.isOpen || dlt b.start a.stop)

/-- Modelled from the spec: an interval is a half-open time range with a
set of tags (spec section 3, "Interval"; `Interval.cpp` is not part of
the sources).  The annotation plays no role in the verified claims and
is omitted; the serialized line of an interval is modelled as the
interval value itself (serialization is injective), with `Interval.json`
as a concrete rendering. -/
structure Interval where
  start : Datetime
  stop : Datetime
  tags : List String
deriving DecidableEq

/-- The range carried by an interval (in C++ `Interval` derives from
`Range`). -/
def Interval.rng (iv : Interval) : Rng := ⟨iv.start, iv.stop⟩

/-- Modelled from the spec: a concrete rendering of `Interval::json`.
Only injectivity on the modelled fields matters to the claims. -/
def Interval.json (iv : Interval) : String :=
  "interval " ++ toString iv.start.mi ++ ":" ++ toString iv.start.off ++
  " - " ++ toString iv.stop.mi ++ ":" ++ toString iv.stop.off ++
  " # " ++ String.intercalate "," iv.tags

/-- A serialized interval line; modelled as the interval itself. -/
abbrev Line := Interval

/-- Modelled from the spec: the ordering policy on lines — compare by
parsed start instant, ties broken by end instant with an open end
ordered after any closed end sharing the same start (spec section 4.1).
The final raw-byte tie-break of the source refines equal keys only and
is not needed by any claim. -/
def lineLe (a b : Line) : Bool :=
  dlt a.start b.start ||
  (a.start = b.start &&
    (if a.stop = epoch0 then b.stop = epoch0
     else (b.stop = epoch0 || dle a.stop b.stop)))

/-- Modelled from the spec: sorted insertion of a line (spec section
4.1, "Insertion uses binary search"; the insertion point is the first
position whose line is not below the new one). -/
def insLine (x : Line) : List Line → List Line
  | [] => [x]
  | y :: ys => if lineLe x y then x :: y :: ys else y :: insLine x ys

/-- Removal of the first matching serialized line. -/
def eraseLine (x : Line) : List Line → List Line
  | [] => []
  | y :: ys => if y = x then ys else y :: eraseLine x ys

/-- Modelled from the spec: a `Datafile` owns the lines of one calendar
month plus a dirty flag (spec sections 3 and 4.1; `Datafile.cpp` is not
part of the sources).  The `YYYY-MM` filename is represented by the
month index it denotes; lazy line loading is represented by the loaded
line list, which is what all store operations observe. -/
structure Datafile where
  month : Nat
  lines : List Line
  modified : Bool
deriving DecidableEq

/-- The month range `[first day of the month, first day of the next
month)` derived from a datafile's name. -/
def Datafile.rng (f : Datafile) : Rng := ⟨⟨f.month, 0⟩, ⟨f.month + 1, 0⟩⟩

/-- Modelled from the spec: `Datafile::addInterval` inserts the
serialized line at the correct sorted position and returns true iff the
file was changed (spec section 4.1). -/
def Datafile.addInterval (f : Datafile) (iv : Interval) : Bool × Datafile :=
  let ls := insLine iv f.lines
  let changed : Bool := ls ≠ f.lines
  (changed, { f with lines := ls, modified := f.modified || changed })

/-- Modelled from the spec: `Datafile::deleteInterval` removes the
matching serialized line; absence is tolerated and reported as `false`
(spec section 4.1). -/
def Datafile.deleteInterval (f : Datafile) (iv : Interval) : Bool × Datafile :=
  if iv ∈ f.lines then
    (true, { f with lines := eraseLine iv f.lines, modified := true })
  else
    (false, f)

/-- A fresh, empty datafile for the given month, as created by
`getDatafile` when no existing file covers an interval's start. -/
def newDatafile (m : Nat) : Datafile := ⟨m, [], false⟩

/-- Modelled from the spec: the tag index entries, a mapping from tag to
reference count kept here as an association list (spec section 4.3;
`TagInfoDatabase.cpp` is not part of the sources). -/
structure TagInfoDatabase where
  entries : List (String × Nat)
  modified : Bool
deriving DecidableEq

/-- Increment helper: bumps the count of `tag`, creating a fresh entry
with count 1 when absent; also reports the previous count, `-1` when the
tag was previously absent. -/
def incEntries (tag : String) : List (String × Nat) → Int × List (String × Nat)
  | [] => (-1, [(tag, 1)])
  | p :: ps =>
    if p.1 = tag then (Int.ofNat p.2, (p.1, p.2 + 1) :: ps)
    else
      let r := incEntries tag ps
      (r.1, p :: r.2)

/-- Decrement helper: decrements the count of `tag`, clamped at zero;
absent tags are left untouched. -/
def decEntries (tag : String) : List (String × Nat) → List (String × Nat)
  | [] => []
  | p :: ps => if p.1 = tag then (p.1, p.2 - 1) :: ps else p :: decEntries tag ps

/-- Count lookup, reading an absent tag as count 0. -/
def lookupCount (tag : String) : List (String × Nat) → Nat
  | [] => 0
  | p :: ps => if p.1 = tag then p.2 else lookupCount tag ps

/-- Modelled from the spec: `incrementTag` returns the previous count
(`-1` when the tag was previously absent) and marks the index dirty
(spec section 4.3). -/
def TagInfoDatabase.incrementTag (t : TagInfoDatabase) (tag : String) :
    Int × TagInfoDatabase :=
  let r := incEntries tag t.entries
  (r.1, ⟨r.2, true⟩)

/-- Modelled from the spec: `decrementTag`, clamped at zero (spec
section 4.3). -/
def TagInfoDatabase.decrementTag (t : TagInfoDatabase) (tag : String) :
    TagInfoDatabase :=
  ⟨decEntries tag t.entries, true⟩

/-- The count recorded for a tag, reading an absent tag as 0. -/
def TagInfoDatabase.count (t : TagInfoDatabase) (tag : String) : Nat :=
  lookupCount tag t.entries

/-- Modelled from the spec: `tags()` — the snapshot of keys of the tag
index (spec section 4.3).  Set membership in this list is what the
claims consume. -/
def TagInfoDatabase.tagList (t : TagInfoDatabase) : List String :=
  t.entries.map (·.1)

/-- Modelled from the spec: an undo record, a triple of action kind,
before payload and after payload (spec section 3, "Undo Record";
`UndoAction`/`Journal` sources are headers only). -/
structure UndoAction where
  atype : String
  before : String
  after : String
deriving DecidableEq

/-- Modelled from the spec: the undo journal as its list of records;
transaction sentinels and size pruning play no role in the verified
claims. -/
structure Journal where
  actions : List UndoAction
deriving DecidableEq

/-- Modelled from the spec: `recordIntervalAction(before, after)`
appends one interval-kind record (spec section 4.4). -/
def Journal.recordIntervalAction (j : Journal) (before after : String) : Journal :=
  ⟨j.actions ++ [⟨"interval", before, after⟩]⟩

/-- The in-memory state of `Database`: the ordered datafile list, the
tag index and the undo journal (`Database.h` fields `_files`,
`_tagInfoDatabase`, `_journal`). -/
structure Database where
  files : List Datafile
  tagDb : TagInfoDatabase
  journal : Journal
deriving DecidableEq

/-- The scan of `findDatafile` (`Database.cpp` lines 47-68), running
over the datafile list in reverse; `n` is one past the forward index of
the list head.  Case one returns the file containing the range's start;
case two returns the insertion point immediately after a file whose
range end is strictly before the start; falling through returns the
front. -/
def findGo (r : Rng) : List Datafile → Nat → Nat
  | [], _ => 0
  | df :: rest, n =>
    if r.startsWithin df.rng then n - 1
    else if dlt df.rng.stop r.start then n
    else findGo r rest (n - 1)

/-- `findDatafile` (`Database.cpp` lines 47-68): search the file list
from newest backward; the result is a forward index into the list, with
`files.length` playing the role of the end iterator. -/
def findDatafile (r : Rng) (files : List Datafile) : Nat :=
  findGo r files.reverse files.length

/-- Whether position `i` of the file list holds a datafile whose range
contains the interval's start; `i = files.length` (the end iterator)
counts as not covering.  This is the guard of `getDatafile`
(`Database.cpp` line 75). -/
def coversAt (iv : Interval) (files : List Datafile) (i : Nat) : Bool :=
  match files[i]? with
  | some f => iv.rng.startsWithin f.rng
  | none => false

/-- Insertion of an element at position `i` of a list (the semantics of
`vector::emplace` at an iterator). -/
def insertAt {α : Type} (i : Nat) (x : α) (l : List α) : List α :=
  l.take i ++ x :: l.drop i

/-- `getDatafile` (`Database.cpp` lines 71-88): resolve the datafile for
an interval, creating a new datafile named after the interval's start
month when the resolved position does not cover it.  Returns the
position of the resolved datafile together with the updated list. -/
def getDatafile (iv : Interval) (files : List Datafile) : Nat × List Datafile :=
  let i := findDatafile iv.rng files
  if coversAt iv files i then (i, files)
  else (i, insertAt i (newDatafile iv.start.mi) files)

/-- `Database::addInterval` (`Database.cpp` lines 345-361): increment
the tag counts, route to the datafile covering the start (creating it if
needed), and append a `("interval", "", iv.json)` undo record iff the
datafile reported a change. -/
def Database.addInterval (db : Database) (iv : Interval) : Database :=
  let tagDb := iv.tags.foldl (fun t tag => (t.incrementTag tag).2) db.tagDb
  let p := getDatafile iv db.files
  let f := p.2.getD p.1 (newDatafile 0)
  let q := f.addInterval iv
  { files := p.2.set p.1 q.2,
    tagDb := tagDb,
    journal := if q.1 then db.journal.recordIntervalAction "" iv.json else db.journal }

/-- `Database::deleteInterval` (`Database.cpp` lines 364-379): decrement
the tag counts, route to the datafile for the start (creating it if
needed) and delete the line there, then re-resolve; when the re-resolved
position does not cover the start the C++ code throws, which the model
reports as a `some` error message alongside the mutated state (the C++
mutations happen in place before the throw).  On success a
`("interval", iv.json, "")` undo record is appended. -/
def Database.deleteInterval (db : Database) (iv : Interval) :
    Database × Option String :=
  let tagDb := iv.tags.foldl (fun t tag => t.decrementTag tag) db.tagDb
  let p := getDatafile iv db.files
  let f := p.2.getD p.1 (newDatafile 0)
  let files1 := p.2.set p.1 (f.deleteInterval iv).2
  let j := findDatafile iv.rng files1
  if coversAt iv files1 j then
    ({ files := files1, tagDb := tagDb,
       journal := db.journal.recordIntervalAction iv.json "" }, none)
  else
    ({ files := files1, tagDb := tagDb, journal := db.journal },
     some "Database failed to find file for deleted Interval")

/-- The month-long range `[first of month m, first of month m+1)`. -/
def monthRng (m : Nat) : Rng := ⟨⟨m, 0⟩, ⟨m + 1, 0⟩⟩

/-- `Database::segmentRange` (`Database.cpp` lines 424-464): walk the
months from the range's start month through the effective end's month,
emitting each month range that intersects the original range.  An open
end is materialized as the current instant, passed here as `now` (the
C++ `Datetime ()` default constructor). -/
def segmentRange (now : Datetime) (r : Rng) : List Rng :=
  let e := if r.stop = epoch0 then now else r.stop
  ((List.range' r.start.mi (e.mi + 1 - r.start.mi)).map monthRng).filter
    (fun s => r.intersects s)

/-- The sequence of lines produced by forward iteration
(`Database::begin`/`end`, `Database.cpp` lines 91-169 and 253-262):
files newest first, lines within a file last first; empty files
contribute nothing. -/
def Database.iterLines (db : Database) : List Line :=
  (db.files.reverse.map (fun f => f.lines.reverse)).flatten

/-- The sequence of lines produced by reverse iteration
(`Database::rbegin`/`rend`): files oldest first, lines in file order. -/
def Database.revIterLines (db : Database) : List Line :=
  (db.files.map (fun f => f.lines)).flatten

/-- The on-disk data directory: an association of month (standing for
the `YYYY-MM.data` filename) to file content. -/
abbrev Disk := List (Nat × List Line)

/-- Modelled from the spec: `AtomicFile::write` of one datafile —
replace the content stored under the name, creating the file when
absent (spec section 4.5). -/
def diskWrite (d : Disk) (m : Nat) (c : List Line) : Disk :=
  if d.any (fun p => p.1 = m) then
    d.map (fun p => if p.1 = m then (m, c) else p)
  else d ++ [(m, c)]

/-- `Database::commit` (`Database.cpp` lines 292-303) restricted to the
datafiles: flush every dirty datafile through the atomic writer in list
order, clearing the dirty flags.  (The tag sidecar write is independent
of the line data and not represented on this disk.) -/
def Database.commitDisk (db : Database) (d : Disk) : Disk × Database :=
  let d' := db.files.foldl
    (fun acc f => if f.modified then diskWrite acc f.month f.lines else acc) d
  (d', { db with files := db.files.map (fun f => { f with modified := false }) })

/-- Sorted insertion of a month key (ascending). -/
def insNat (x : Nat) : List Nat → List Nat
  | [] => [x]
  | y :: ys => if x ≤ y then x :: y :: ys else y :: insNat x ys

/-- Insertion sort on month keys: the model of sorting the discovered
`YYYY-MM.data` filenames, whose name order is the month order. -/
def sortNats : List Nat → List Nat
  | [] => []
  | x :: xs => insNat x (sortNats xs)

/-- `Database::initializeDatafiles` (`Database.cpp` lines 549-577):
discover the data files, sort them by name — which for `YYYY-MM.data`
names is the month order — and load them. -/
def initializeDatafiles (d : Disk) : List Datafile :=
  (sortNats (d.map (·.1))).map
    (fun m => { month := m,
                lines := ((d.find? (fun p => p.1 = m)).map (·.2)).getD [],
                modified := false })

/-- Reopening a store from disk (the `Database` constructor with a fresh
tag index; the tag sidecar is initialized separately by
`initializeTagDatabase`). -/
def reopen (d : Disk) : Database :=
  { files := initializeDatafiles d, tagDb := ⟨[], false⟩, journal := ⟨[]⟩ }

/-- The tag index produced by the rebuild branch of
`Database::initializeTagDatabase` (`Database.cpp` lines 519-546):
iterate the store (forward iteration) and increment once per tag
occurrence, starting from a fresh index. -/
def rebuildTagDb (db : Database) : TagInfoDatabase :=
  db.iterLines.foldl
    (fun t line => line.tags.foldl (fun t2 tag => (t2.incrementTag tag).2) t)
    ⟨[], false⟩

/-- `Database::initializeTagDatabase` (`Database.cpp` lines 472-546):
a successfully parsed sidecar is installed with a cleared dirty flag; a
missing or unparseable sidecar (`none`) triggers the authoritative
rebuild from the interval data. -/
def Database.initializeTagDatabase (db : Database)
    (sidecar : Option (List (String × Nat))) : Database :=
  match sidecar with
  | some entries => { db with tagDb := ⟨entries, false⟩ }
  | none => { db with tagDb := rebuildTagDb db }

/-- The empty store. -/
def emptyDb : Database := ⟨[], ⟨[], false⟩, ⟨[]⟩⟩

/-- A datafile makes the scan of `findDatafile` stop when it either
contains the range's start or ends strictly before it. -/
def fires (r : Rng) (f : Datafile) : Bool :=
  r.startsWithin f.rng || dlt f.rng.stop r.start

/-- The observable key of a datafile for line-identity comparisons: its
month and its line sequence (the dirty flag is bookkeeping). -/
def fkey (f : Datafile) : Nat × List Line := (f.month, f.lines)

/-- The datafile reference `getDatafile` hands back inside
`Database::addInterval`/`deleteInterval`. -/
def resolvedDatafile (db : Database) (iv : Interval) : Datafile :=
  let p := getDatafile iv db.files
  p.2.getD p.1 (newDatafile 0)

/-- The re-resolution check of `Database::deleteInterval`
(`Database.cpp` lines 372-373): whether, after routing the delete, the
datafile found for the interval again actually covers its start. -/
def deleteResolvedCovers (db : Database) (iv : Interval) : Bool :=
  let p := getDatafile iv db.files
  let f := p.2.getD p.1 (newDatafile 0)
  let files1 := p.2.set p.1 (f.deleteInterval iv).2
  coversAt iv files1 (findDatafile iv.rng files1)

/-- The change report of the target datafile inside
`Database::addInterval` (`Database.cpp` line 357). -/
def addChanged (db : Database) (iv : Interval) : Bool :=
  ((resolvedDatafile db iv).addInterval iv).1

/-- The scan of claim C4 as worded, with the non-strict comparison
"range end is ≤ r.start"; stated from the spec's words for comparison
with the source's strict comparison. -/
def findGoLe (r : Rng) : List Datafile → Nat → Nat
  | [], _ => 0
  | df :: rest, n =>
    if r.startsWithin df.rng then n - 1
    else if dle df.rng.stop r.start then n
    else findGoLe r rest (n - 1)

/-- Claimed resolution rule of C4 (non-strict version), as a whole-list
function. -/
def findDatafileClaimed (r : Rng) (files : List Datafile) : Nat :=
  findGoLe r files.reverse files.length

/-- The position of the newest (rightmost) datafile that stops the
scan, when one exists. -/
def newestFire (r : Rng) : List Datafile → Option Nat
  | [] => none
  | f :: rest =>
    match newestFire r rest with
    | some k => some (k + 1)
    | none => if fires r f then some 0 else none

/-- Declarative restatement of the resolution rule with the strict
comparison: find the newest file that either contains the start or ends
strictly before it; return its position when it contains the start, the
position after it when it merely ends before the start, and the front
when no file qualifies. -/
def findDatafileDecl (r : Rng) (files : List Datafile) : Nat :=
  match newestFire r files with
  | none => 0
  | some j =>
    if r.startsWithin (files.getD j (newDatafile 0)).rng then j else j + 1

/-- The number of month segments `segmentRange` produces: every month
from the start month through the effective end month, except that a
closed end falling exactly on a month boundary excludes its month. -/
def segCount (now : Datetime) (r : Rng) : Nat :=
  if r.stop = epoch0 then now.mi + 1 - r.start.mi
  else if 0 < r.stop.off then r.stop.mi + 1 - r.start.mi
  else r.stop.mi - r.start.mi

/-! ### Concrete inputs used by counterexamples and witnesses.
Month index 24192 is 2016-01, 24193 is 2016-02; offsets are seconds
within the month. -/

/-- A one-hour interval in mid 2016-01. -/
def ivJan : Interval := ⟨⟨24192, 1000⟩, ⟨24192, 4600⟩, []⟩

/-- A one-hour interval starting exactly at 2016-02-01T00:00:00, the
first instant of its month. -/
def ivFeb1 : Interval := ⟨⟨24193, 0⟩, ⟨24193, 3600⟩, []⟩

/-- A one-hour interval in mid 2016-02. -/
def ivFeb10 : Interval := ⟨⟨24193, 800000⟩, ⟨24193, 803600⟩, []⟩

/-- A tagged one-hour interval in mid 2016-02. -/
def ivTagged : Interval := ⟨⟨24193, 900000⟩, ⟨24193, 903600⟩, ["a"]⟩

/-- The interval sequence refuting claim C2. -/
def c2S : List Interval := [ivJan, ivFeb1, ivFeb10]

/-- The store after adding the C2 sequence to an empty store. -/
def c2final : Database := c2S.foldl (fun db iv => db.addInterval iv) emptyDb

/-- The store after adding a January interval and then the
month-boundary interval. -/
def c3db : Database := (emptyDb.addInterval ivJan).addInterval ivFeb1

/-- The C3 store after one further mid-February add. -/
def c3db3 : Database := c3db.addInterval ivFeb10

/-- A file list holding only the 2016-01 datafile. -/
def c4Files : List Datafile := [⟨24192, [], false⟩]

/-- A range starting exactly at the 2016-02 month boundary. -/
def c4Rng : Rng := ⟨⟨24193, 0⟩, ⟨24193, 3600⟩⟩

/-- An open-ended range starting inside 2016-01. -/
def c7r : Rng := ⟨⟨24192, 100⟩, epoch0⟩

/-- A current instant falling exactly on the 2016-02 month boundary. -/
def c7now : Datetime := ⟨24193, 0⟩

/-- A closed range crossing two month boundaries, for the C7 witness. -/
def c7wr : Rng := ⟨⟨24193, 50000⟩, ⟨24195, 40000⟩⟩

/-- An arbitrary later instant for the C7 witness. -/
def c7wnow : Datetime := ⟨24300, 5⟩

/-- A two-file store with tagged lines for the C6 witness. -/
def c6db : Database :=
  { files := [⟨24192, [⟨⟨24192, 10⟩, ⟨24192, 20⟩, ["a", "b"]⟩], false⟩,
              ⟨24193, [⟨⟨24193, 10⟩, ⟨24193, 20⟩, ["b", "c"]⟩], false⟩],
    tagDb := ⟨[], false⟩,
    journal := ⟨[]⟩ }

namespace Spec

/-! ### Basic facts about the order on instants and lines -/

theorem dlt_iff (a b : Datetime) :
    dlt a b = true ↔ (a.mi < b.mi ∨ (a.mi = b.mi ∧ a.off < b.off)) := by
  simp [dlt]

theorem dle_iff (a b : Datetime) :
    dle a b = true ↔ (a.mi < b.mi ∨ (a.mi = b.mi ∧ a.off ≤ b.off)) := by
  simp [dle]

theorem lineLe_refl (a : Line) : lineLe a a = true := by
  by_cases h : a.stop = epoch0 <;> simp [lineLe, dlt, dle, h]

theorem eraseLine_insLine (x : Line) (l : List Line) :
    eraseLine x (insLine x l) = l := by
  induction l with
  | nil => simp [insLine, eraseLine]
  | cons y ys ih =>
    by_cases h : lineLe x y = true
    · simp [insLine, h, eraseLine]
    · have hxy : y ≠ x := by
        intro hy; rw [hy] at h; exact h (lineLe_refl x)
      simp [insLine, h, eraseLine, hxy, ih]

theorem mem_insLine (x : Line) (l : List Line) : x ∈ insLine x l := by
  induction l with
  | nil => simp [insLine]
  | cons y ys ih =>
    by_cases h : lineLe x y = true <;> simp [insLine, h, ih]

/-! ### The datafile month range -/

theorem startsWithin_month (iv : Interval) (f : Datafile) :
    iv.rng.startsWithin f.rng = true ↔ iv.start.mi = f.month := by
  simp only [Rng.startsWithin, Datafile.rng, Interval.rng, Bool.and_eq_true,
    dle_iff, dlt_iff]
  omega

theorem addInterval_month (f : Datafile) (iv : Interval) :
    (f.addInterval iv).2.month = f.month := by
  simp [Datafile.addInterval]

theorem deleteInterval_month (f : Datafile) (iv : Interval) :
    (f.deleteInterval iv).2.month = f.month := by
  by_cases h : iv ∈ f.lines <;> simp [Datafile.deleteInterval, h]

/-! ### List positional helpers -/

theorem insertAt_length_append {α : Type} (A : List α) (x : α) (B : List α) :
    insertAt A.length x (A ++ B) = A ++ x :: B := by
  induction A with
  | nil => simp [insertAt]
  | cons a A ih =>
    simp [insertAt, List.take, List.drop] at ih ⊢

theorem set_length_append {α : Type} (A : List α) (F y : α) (B : List α) :
    (A ++ F :: B).set A.length y = A ++ y :: B := by
  induction A with
  | nil => simp
  | cons a A ih =>
    simp at ih ⊢

theorem getElem?_length_append {α : Type} (A : List α) (F : α) (B : List α) :
    (A ++ F :: B)[A.length]? = some F := by
  induction A with
  | nil => simp
  | cons a A ih => simpa using ih

theorem getD_length_append (A : List Datafile) (F : Datafile) (B : List Datafile)
    (d : Datafile) : (A ++ F :: B).getD A.length d = F := by
  rw [List.getD_eq_getElem?_getD, getElem?_length_append]
  rfl

/-! ### The findDatafile scan -/

theorem findDatafile_nil (r : Rng) : findDatafile r [] = 0 := rfl

theorem findDatafile_concat (r : Rng) (l : List Datafile) (g : Datafile) :
    findDatafile r (l ++ [g]) =
      if r.startsWithin g.rng then l.length
      else if dlt g.rng.stop r.start then l.length + 1
      else findDatafile r l := by
  simp [findDatafile, findGo]

/-- Complete characterization of the scan: either no file fires and the
front is returned, or the newest firing file either contains the start
(its position is returned) or ends before it (the next position is
returned). -/
theorem findDatafile_spec (r : Rng) (l : List Datafile) :
    (findDatafile r l = 0 ∧ ∀ g ∈ l, fires r g = false) ∨
    (∃ A F B, l = A ++ F :: B ∧ findDatafile r l = A.length ∧
      r.startsWithin F.rng = true ∧ ∀ g ∈ B, fires r g = false) ∨
    (∃ A F B, l = A ++ F :: B ∧ findDatafile r l = A.length + 1 ∧
      r.startsWithin F.rng = false ∧ dlt F.rng.stop r.start = true ∧
      ∀ g ∈ B, fires r g = false) := by
  induction l using List.reverseRecOn with
  | nil => exact Or.inl ⟨rfl, by simp⟩
  | append_singleton l g ih =>
    by_cases hs : r.startsWithin g.rng = true
    · refine Or.inr (Or.inl ⟨l, g, [], by simp, ?_, hs, by simp⟩)
      rw [findDatafile_concat, if_pos hs]
    · by_cases hd : dlt g.rng.stop r.start = true
      · refine Or.inr (Or.inr ⟨l, g, [], by simp, ?_,
          Bool.not_eq_true _ ▸ hs, hd, by simp⟩)
        rw [findDatafile_concat, if_neg (by simp [hs]), if_pos hd]
      · have hg : fires r g = false := by
          simp [fires, Bool.or_eq_false_iff]
          exact ⟨Bool.not_eq_true _ ▸ hs, Bool.not_eq_true _ ▸ hd⟩
        have heq : findDatafile r (l ++ [g]) = findDatafile r l := by
          rw [findDatafile_concat, if_neg (by simp [hs]), if_neg (by simp [hd])]
        rcases ih with ⟨h0, hall⟩ | ⟨A, F, B, hl, hv, hF, hB⟩ |
          ⟨A, F, B, hl, hv, hF1, hF2, hB⟩
        · refine Or.inl ⟨heq.trans h0, ?_⟩
          intro x hx
          rcases List.mem_append.mp hx with hx | hx
          · exact hall x hx
          · simp only [List.mem_singleton] at hx; exact hx ▸ hg
        · refine Or.inr (Or.inl ⟨A, F, B ++ [g], by simp [hl], heq.trans hv, hF, ?_⟩)
          intro x hx
          rcases List.mem_append.mp hx with hx | hx
          · exact hB x hx
          · simp only [List.mem_singleton] at hx; exact hx ▸ hg
        · refine Or.inr (Or.inr ⟨A, F, B ++ [g], by simp [hl], heq.trans hv, hF1, hF2, ?_⟩)
          intro x hx
          rcases List.mem_append.mp hx with hx | hx
          · exact hB x hx
          · simp only [List.mem_singleton] at hx; exact hx ▸ hg

/-- When a covering file sits somewhere in the list and nothing newer
fires, the scan returns exactly its position. -/
theorem findDatafile_found (r : Rng) (A : List Datafile) (F : Datafile)
    (B : List Datafile) (hF : r.startsWithin F.rng = true)
    (hB : ∀ g ∈ B, fires r g = false) :
    findDatafile r (A ++ F :: B) = A.length := by
  induction B using List.reverseRecOn with
  | nil =>
    have : A ++ F :: ([] : List Datafile) = A ++ [F] := by simp
    rw [this, findDatafile_concat, if_pos hF]
  | append_singleton B g ih =>
    have hg : fires r g = false := hB g (by simp)
    have hrest : ∀ x ∈ B, fires r x = false := fun x hx => hB x (by simp [hx])
    have hassoc : A ++ F :: (B ++ [g]) = (A ++ F :: B) ++ [g] := by simp
    rw [hassoc, findDatafile_concat,
      if_neg (by simp [fires, Bool.or_eq_false_iff] at hg; simp [hg.1]),
      if_neg (by simp [fires, Bool.or_eq_false_iff] at hg; simp [hg.2]),
      ih hrest]

/-! ### Resolution: getDatafile always yields a covering datafile -/

theorem insertAt_zero {α : Type} (x : α) (l : List α) : insertAt 0 x l = x :: l := by
  simp [insertAt]

theorem getElem?_append_self {α : Type} (A B : List α) :
    (A ++ B)[A.length]? = B[0]? := by
  induction A with
  | nil => simp
  | cons a A ih => simp [ih]

theorem coversAt_length_append (iv : Interval) (A : List Datafile)
    (F : Datafile) (B : List Datafile) (hF : F.month = iv.start.mi) :
    coversAt iv (A ++ F :: B) A.length = true := by
  unfold coversAt
  rw [getElem?_length_append]
  simp [startsWithin_month, hF]

theorem getDatafile_of_cover (iv : Interval) (A : List Datafile) (F : Datafile)
    (B : List Datafile) (hF : F.month = iv.start.mi)
    (hB : ∀ g ∈ B, fires iv.rng g = false) :
    getDatafile iv (A ++ F :: B) = (A.length, A ++ F :: B) := by
  have hfind : findDatafile iv.rng (A ++ F :: B) = A.length :=
    findDatafile_found _ _ _ _ ((startsWithin_month iv F).mpr hF.symm) hB
  simp [getDatafile, hfind, coversAt_length_append iv A F B hF]

/-- Structure of `getDatafile`'s result: the resolved position always
holds a datafile of the start's month, nothing after it fires the scan,
and the input list is either returned unchanged or grown by exactly the
fresh datafile at the resolved position. -/
theorem getDatafile_structure (iv : Interval) (files : List Datafile) :
    ∃ A F B, getDatafile iv files = (A.length, A ++ F :: B) ∧
      F.month = iv.start.mi ∧ (∀ g ∈ B, fires iv.rng g = false) ∧
      (files = A ++ F :: B ∨ (files = A ++ B ∧ F = newDatafile iv.start.mi)) := by
  rcases findDatafile_spec iv.rng files with ⟨h0, hall⟩ |
    ⟨A, F, B, hl, hv, hF, hB⟩ | ⟨A, F, B, hl, hv, hF1, hF2, hB⟩
  · have hcov : coversAt iv files 0 = false := by
      cases hf : files with
      | nil => rfl
      | cons f fs =>
        have hnf := hall f (by rw [hf]; simp)
        simp only [fires, Bool.or_eq_false_iff] at hnf
        simp [coversAt, hnf.1]
    refine ⟨[], newDatafile iv.start.mi, files, ?_, rfl, hall, Or.inr ⟨rfl, rfl⟩⟩
    simp [getDatafile, h0, hcov, insertAt_zero]
  · subst hl
    have hcov : coversAt iv (A ++ F :: B) A.length = true :=
      coversAt_length_append iv A F B ((startsWithin_month iv F).mp hF).symm
    refine ⟨A, F, B, ?_, ((startsWithin_month iv F).mp hF).symm, hB, Or.inl rfl⟩
    simp [getDatafile, hv, hcov]
  · subst hl
    have hcov : coversAt iv (A ++ F :: B) (A.length + 1) = false := by
      have hopt : (A ++ F :: B)[A.length + 1]? = B[0]? := by
        have h1 : A ++ F :: B = (A ++ [F]) ++ B := by simp
        have h2 : A.length + 1 = (A ++ [F]).length := by simp
        rw [h1, h2, getElem?_append_self]
      unfold coversAt
      rw [hopt]
      cases hb : B with
      | nil => rfl
      | cons g B2 =>
        have hnf := hB g (by rw [hb]; simp)
        simp only [fires, Bool.or_eq_false_iff] at hnf
        simp [hnf.1]
    refine ⟨A ++ [F], newDatafile iv.start.mi, B, ?_, rfl, hB, Or.inr ⟨by simp, rfl⟩⟩
    have hins : insertAt (A.length + 1) (newDatafile iv.start.mi) (A ++ F :: B) =
        (A ++ [F]) ++ newDatafile iv.start.mi :: B := by
      have h1 : A ++ F :: B = (A ++ [F]) ++ B := by simp
      have h2 : A.length + 1 = (A ++ [F]).length := by simp
      rw [h1, h2, insertAt_length_append]
    simp [getDatafile, hv, hcov, hins]

/-! ### Core behaviour of the store mutations -/

theorem add_core (db : Database) (iv : Interval) (A : List Datafile)
    (F : Datafile) (B : List Datafile)
    (hget : getDatafile iv db.files = (A.length, A ++ F :: B)) :
    (db.addInterval iv).files = A ++ (F.addInterval iv).2 :: B ∧
    (db.addInterval iv).tagDb =
      iv.tags.foldl (fun t tag => (t.incrementTag tag).2) db.tagDb ∧
    (db.addInterval iv).journal =
      (if (F.addInterval iv).1 then db.journal.recordIntervalAction "" iv.json
       else db.journal) := by
  simp only [Database.addInterval, hget]
  rw [getD_length_append, set_length_append]
  simp

theorem delete_core (db : Database) (iv : Interval) (A : List Datafile)
    (F : Datafile) (B : List Datafile)
    (hget : getDatafile iv db.files = (A.length, A ++ F :: B))
    (hF : F.month = iv.start.mi)
    (hB : ∀ g ∈ B, fires iv.rng g = false) :
    (db.deleteInterval iv).2 = none ∧
    (db.deleteInterval iv).1.files = A ++ (F.deleteInterval iv).2 :: B ∧
    (db.deleteInterval iv).1.journal = db.journal.recordIntervalAction iv.json "" ∧
    (db.deleteInterval iv).1.tagDb =
      iv.tags.foldl (fun t tag => t.decrementTag tag) db.tagDb := by
  have hFm : (F.deleteInterval iv).2.month = iv.start.mi :=
    (deleteInterval_month F iv).trans hF
  have hset : (A ++ F :: B).set A.length (F.deleteInterval iv).2 =
      A ++ (F.deleteInterval iv).2 :: B := set_length_append A F _ B
  have hfind : findDatafile iv.rng (A ++ (F.deleteInterval iv).2 :: B) = A.length :=
    findDatafile_found _ _ _ _ ((startsWithin_month iv _).mpr hFm.symm) hB
  have hcov : coversAt iv (A ++ (F.deleteInterval iv).2 :: B) A.length = true :=
    coversAt_length_append iv A _ B hFm
  simp only [Database.deleteInterval, hget, getD_length_append, hset, hfind, hcov,
    if_true]
  simp

/-- Global structure of `deleteInterval`: it never fails, always appends
the undo record, applies the tag decrements, and touches exactly one
datafile — the one of the start's month, freshly created when the
resolution did not find one. -/
theorem deleteInterval_spec (db : Database) (iv : Interval) :
    ∃ A F B, (db.deleteInterval iv).2 = none ∧
      (db.deleteInterval iv).1.files = A ++ (F.deleteInterval iv).2 :: B ∧
      (db.deleteInterval iv).1.journal = db.journal.recordIntervalAction iv.json "" ∧
      (db.deleteInterval iv).1.tagDb =
        iv.tags.foldl (fun t tag => t.decrementTag tag) db.tagDb ∧
      F.month = iv.start.mi ∧
      (db.files = A ++ F :: B ∨ (db.files = A ++ B ∧ F = newDatafile iv.start.mi)) := by
  obtain ⟨A, F, B, hget, hF, hB, halt⟩ := getDatafile_structure iv db.files
  obtain ⟨h1, h2, h3, h4⟩ := delete_core db iv A F B hget hF hB
  exact ⟨A, F, B, h1, h2, h3, h4, hF, halt⟩

/-- Global structure of `addInterval`: the store routes the line into
the datafile of the start's month, creating it when absent. -/
theorem addInterval_spec (db : Database) (iv : Interval) :
    ∃ A F B, (db.addInterval iv).files = A ++ (F.addInterval iv).2 :: B ∧
      (db.addInterval iv).tagDb =
        iv.tags.foldl (fun t tag => (t.incrementTag tag).2) db.tagDb ∧
      (db.addInterval iv).journal =
        (if (F.addInterval iv).1 then db.journal.recordIntervalAction "" iv.json
         else db.journal) ∧
      F.month = iv.start.mi ∧ (∀ g ∈ B, fires iv.rng g = false) ∧
      (db.files = A ++ F :: B ∨ (db.files = A ++ B ∧ F = newDatafile iv.start.mi)) := by
  obtain ⟨A, F, B, hget, hF, hB, halt⟩ := getDatafile_structure iv db.files
  obtain ⟨h1, h2, h3⟩ := add_core db iv A F B hget
  exact ⟨A, F, B, h1, h2, h3, hF, hB, halt⟩

/-! ### Tag index lemmas -/

theorem lookupCount_inc_self (tag : String) (l : List (String × Nat)) :
    lookupCount tag (incEntries tag l).2 = lookupCount tag l + 1 := by
  induction l with
  | nil => simp [incEntries, lookupCount]
  | cons p ps ih =>
    by_cases h : p.1 = tag
    · simp [incEntries, lookupCount, h]
    · simp [incEntries, lookupCount, h, ih]

theorem lookupCount_inc_other (tag t : String) (h : t ≠ tag)
    (l : List (String × Nat)) :
    lookupCount t (incEntries tag l).2 = lookupCount t l := by
  have h2 : ¬ tag = t := fun hh => h hh.symm
  induction l with
  | nil => simp [incEntries, lookupCount, h2]
  | cons p ps ih =>
    by_cases hp : p.1 = tag
    · simp [incEntries, lookupCount, hp, h2]
    · simp [incEntries, lookupCount, hp, ih]

theorem lookupCount_dec_self (tag : String) (l : List (String × Nat)) :
    lookupCount tag (decEntries tag l) = lookupCount tag l - 1 := by
  induction l with
  | nil => simp [decEntries, lookupCount]
  | cons p ps ih =>
    by_cases h : p.1 = tag
    · simp [decEntries, lookupCount, h]
    · simp [decEntries, lookupCount, h, ih]

theorem lookupCount_dec_other (tag t : String) (h : t ≠ tag)
    (l : List (String × Nat)) :
    lookupCount t (decEntries tag l) = lookupCount t l := by
  have h2 : ¬ tag = t := fun hh => h hh.symm
  induction l with
  | nil => simp [decEntries]
  | cons p ps ih =>
    by_cases hp : p.1 = tag
    · simp [decEntries, lookupCount, hp, h2]
    · simp [decEntries, lookupCount, hp, ih]

theorem count_foldInc (L : List String) (t : TagInfoDatabase) (tag : String) :
    (L.foldl (fun a s => (a.incrementTag s).2) t).count tag =
      t.count tag + L.count tag := by
  induction L generalizing t with
  | nil => simp
  | cons s L ih =>
    rw [List.foldl_cons, ih, List.count_cons]
    by_cases h : s = tag
    · subst h
      simp only [TagInfoDatabase.count, TagInfoDatabase.incrementTag,
        lookupCount_inc_self]
      simp
      omega
    · have : lookupCount tag (incEntries s t.entries).2 = lookupCount tag t.entries :=
        lookupCount_inc_other s tag (Ne.symm h) t.entries
      simp only [TagInfoDatabase.count, TagInfoDatabase.incrementTag, this]
      simp [h]

theorem count_foldDec (L : List String) (t : TagInfoDatabase) (tag : String) :
    (L.foldl (fun a s => a.decrementTag s) t).count tag =
      t.count tag - L.count tag := by
  induction L generalizing t with
  | nil => simp
  | cons s L ih =>
    rw [List.foldl_cons, ih, List.count_cons]
    by_cases h : s = tag
    · subst h
      simp only [TagInfoDatabase.count, TagInfoDatabase.decrementTag,
        lookupCount_dec_self]
      simp
      omega
    · have : lookupCount tag (decEntries s t.entries) = lookupCount tag t.entries :=
        lookupCount_dec_other s tag (Ne.symm h) t.entries
      simp only [TagInfoDatabase.count, TagInfoDatabase.decrementTag, this]
      simp [h]

theorem count_inc_dec_roundtrip (L : List String) (t : TagInfoDatabase)
    (tag : String) :
    (L.foldl (fun a s => a.decrementTag s)
      (L.foldl (fun a s => (a.incrementTag s).2) t)).count tag = t.count tag := by
  rw [count_foldDec, count_foldInc]
  omega

theorem mem_tagList_inc (t : TagInfoDatabase) (tag s : String) :
    s ∈ ((t.incrementTag tag).2).tagList ↔ s ∈ t.tagList ∨ s = tag := by
  simp only [TagInfoDatabase.incrementTag, TagInfoDatabase.tagList]
  induction t.entries with
  | nil => simp [incEntries]
  | cons p ps ih =>
    by_cases h : p.1 = tag
    · subst h
      simp [incEntries]
      tauto
    · simp [incEntries, h] at ih ⊢
      tauto

theorem mem_tagList_foldInc (L : List String) (t : TagInfoDatabase) (s : String) :
    s ∈ (L.foldl (fun a x => (a.incrementTag x).2) t).tagList ↔
      s ∈ t.tagList ∨ s ∈ L := by
  induction L generalizing t with
  | nil => simp
  | cons x L ih =>
    rw [List.foldl_cons, ih, mem_tagList_inc]
    simp
    tauto

/-- One line of the rebuild: fold the increments of every tag of the line. -/
theorem count_rebuild_aux (ls : List Line) (t : TagInfoDatabase) (tag : String) :
    (ls.foldl (fun a line => line.tags.foldl (fun b x => (b.incrementTag x).2) a)
      t).count tag = t.count tag + (ls.map (fun l => l.tags.count tag)).sum := by
  induction ls generalizing t with
  | nil => simp
  | cons l ls ih =>
    rw [List.foldl_cons, ih, count_foldInc]
    simp
    omega

theorem mem_tagList_rebuild_aux (ls : List Line) (t : TagInfoDatabase)
    (s : String) :
    s ∈ (ls.foldl (fun a line => line.tags.foldl (fun b x => (b.incrementTag x).2) a)
      t).tagList ↔ s ∈ t.tagList ∨ ∃ l ∈ ls, s ∈ l.tags := by
  induction ls generalizing t with
  | nil => simp
  | cons l ls ih =>
    rw [List.foldl_cons, ih, mem_tagList_foldInc]
    simp
    tauto

theorem sum_count_eq_countP (ls : List Line) (tag : String)
    (h : ∀ l ∈ ls, l.tags.Nodup) :
    (ls.map (fun l => l.tags.count tag)).sum =
      ls.countP (fun l => decide (tag ∈ l.tags)) := by
  induction ls with
  | nil => simp
  | cons l ls ih =>
    have hl := h l (by simp)
    have hrest : ∀ x ∈ ls, x.tags.Nodup := fun x hx => h x (by simp [hx])
    rw [List.map_cons, List.sum_cons, List.countP_cons, ih hrest]
    by_cases hm : tag ∈ l.tags
    · rw [List.count_eq_one_of_mem hl hm]
      simp [hm]
      omega
    · rw [List.count_eq_zero_of_not_mem hm]
      simp [hm]

/-! ### Resolution check of deleteInterval -/

theorem deleteResolvedCovers_true (db : Database) (iv : Interval) :
    deleteResolvedCovers db iv = true := by
  obtain ⟨A, F, B, hget, hF, hB, _⟩ := getDatafile_structure iv db.files
  have hFm : (F.deleteInterval iv).2.month = iv.start.mi :=
    (deleteInterval_month F iv).trans hF
  have hset : (A ++ F :: B).set A.length (F.deleteInterval iv).2 =
      A ++ (F.deleteInterval iv).2 :: B := set_length_append A F _ B
  have hfind : findDatafile iv.rng (A ++ (F.deleteInterval iv).2 :: B) = A.length :=
    findDatafile_found _ _ _ _ ((startsWithin_month iv _).mpr hFm.symm) hB
  simp only [deleteResolvedCovers, hget, getD_length_append, hset, hfind]
  exact coversAt_length_append iv A _ B hFm

/-! ### Claim theorems -/

/-- C1: for every interval `iv`, `deleteInterval iv` fails with the
NotFound error if and only if the datafile re-resolved for `iv` does not
cover `iv.start`; when it does cover, the call completes without error
and appends the `(interval, iv.json, "")` undo record.  (The
re-resolution in fact always covers the start, so the failure side is
vacuous.) -/
theorem C1_delete_notFound_iff (db : Database) (iv : Interval) :
    ((db.deleteInterval iv).2.isSome ↔ deleteResolvedCovers db iv = false) ∧
    (deleteResolvedCovers db iv = true →
      (db.deleteInterval iv).2 = none ∧
      (db.deleteInterval iv).1.journal = db.journal.recordIntervalAction iv.json "") := by
  obtain ⟨A, F, B, hnone, hfiles, hjournal, htag, hF, halt⟩ := deleteInterval_spec db iv
  constructor
  · rw [hnone, deleteResolvedCovers_true db iv]
    simp
  · intro hcov
    exact ⟨hnone, hjournal⟩

/-- C1 witness: the property instantiated at a concrete store and
interval, with the resolution check discharged concretely. -/
theorem C1_delete_notFound_iff_witness :
    deleteResolvedCovers emptyDb ivJan = true ∧
    (((emptyDb.deleteInterval ivJan).2.isSome ↔
        deleteResolvedCovers emptyDb ivJan = false) ∧
      (deleteResolvedCovers emptyDb ivJan = true →
        (emptyDb.deleteInterval ivJan).2 = none ∧
        (emptyDb.deleteInterval ivJan).1.journal =
          emptyDb.journal.recordIntervalAction ivJan.json "")) :=
  ⟨by decide, C1_delete_notFound_iff emptyDb ivJan⟩

/-- C8: `addInterval` appends the `(interval, "", iv.json)` undo record
exactly when the target datafile reported that the file changed; when it
reports no change, the journal is untouched. -/
theorem C8_add_journal_iff (db : Database) (iv : Interval) :
    ((db.addInterval iv).journal.actions =
        db.journal.actions ++ [⟨"interval", "", iv.json⟩] ↔
      addChanged db iv = true) ∧
    (addChanged db iv = false → (db.addInterval iv).journal = db.journal) := by
  obtain ⟨A, F, B, hget, hF, hB, halt⟩ := getDatafile_structure iv db.files
  obtain ⟨hfiles, htag, hjournal⟩ := add_core db iv A F B hget
  have hres : resolvedDatafile db iv = F := by
    simp only [resolvedDatafile, hget]
    exact getD_length_append A F B _
  have hch : addChanged db iv = (F.addInterval iv).1 := by
    rw [addChanged, hres]
  constructor
  · rw [hjournal, hch]
    cases hc : (F.addInterval iv).1 with
    | false =>
      simp only [Bool.false_eq_true, if_false, iff_false]
      intro hx
      have hlen := congrArg List.length hx
      simp at hlen
    | true =>
      simp [hc, Journal.recordIntervalAction]
  · intro h0
    rw [hjournal, hch.symm.trans h0]
    simp

/-- C9: a `deleteInterval` call that does not throw appends the
`(interval, iv.json, "")` undo record unconditionally — here shown even
when the resolved datafile does not contain the matching line, so its
`deleteInterval` reports `false` — unlike `addInterval`, which records
only on a reported change. -/
theorem C9_delete_records_even_absent (db : Database) (iv : Interval)
    (h : iv ∉ (resolvedDatafile db iv).lines) :
    ((resolvedDatafile db iv).deleteInterval iv).1 = false ∧
    (db.deleteInterval iv).2 = none ∧
    (db.deleteInterval iv).1.journal.actions =
      db.journal.actions ++ [⟨"interval", iv.json, ""⟩] := by
  obtain ⟨A, F, B, hnone, hfiles, hjournal, htag, hF, halt⟩ := deleteInterval_spec db iv
  refine ⟨by simp [Datafile.deleteInterval, h], hnone, ?_⟩
  rw [hjournal]
  rfl

/-- C9 witness: deleting from an empty store, where the resolved (fresh)
datafile holds no matching line, still records the undo action. -/
theorem C9_delete_records_even_absent_witness :
    ivFeb10 ∉ (resolvedDatafile emptyDb ivFeb10).lines ∧
    (((resolvedDatafile emptyDb ivFeb10).deleteInterval ivFeb10).1 = false ∧
      (emptyDb.deleteInterval ivFeb10).2 = none ∧
      (emptyDb.deleteInterval ivFeb10).1.journal.actions =
        emptyDb.journal.actions ++ [⟨"interval", ivFeb10.json, ""⟩]) :=
  ⟨by decide, C9_delete_records_even_absent emptyDb ivFeb10 (by decide)⟩

/-- C10: after `deleteInterval iv` (whether it returns or throws), the
store holds a datafile covering `iv.start` — created empty as a side
effect when none existed — and the datafiles of every other month are
untouched. -/
theorem C10_delete_frame (db : Database) (iv : Interval) :
    (∃ f ∈ (db.deleteInterval iv).1.files, iv.rng.startsWithin f.rng = true) ∧
    ((db.deleteInterval iv).1.files.filter (fun f => f.month ≠ iv.start.mi) =
      db.files.filter (fun f => f.month ≠ iv.start.mi)) ∧
    ((∀ f ∈ db.files, f.month ≠ iv.start.mi) →
      ∃ f ∈ (db.deleteInterval iv).1.files, f.month = iv.start.mi ∧ f.lines = []) := by
  obtain ⟨A, F, B, hnone, hfiles, hjournal, htag, hF, halt⟩ := deleteInterval_spec db iv
  have hFm : (F.deleteInterval iv).2.month = iv.start.mi :=
    (deleteInterval_month F iv).trans hF
  refine ⟨⟨(F.deleteInterval iv).2, by rw [hfiles]; simp,
      (startsWithin_month iv _).mpr hFm.symm⟩, ?_, ?_⟩
  · rw [hfiles]
    rcases halt with hdb | ⟨hdb, hnew⟩
    · rw [hdb]
      simp [List.filter_append, hFm, hF]
    · rw [hdb]
      simp [List.filter_append, hFm]
  · intro hall
    rcases halt with hdb | ⟨hdb, hnew⟩
    · exact absurd hF (hall F (by rw [hdb]; simp))
    · refine ⟨(F.deleteInterval iv).2, by rw [hfiles]; simp, hFm, ?_⟩
      rw [hnew]
      simp [Datafile.deleteInterval, newDatafile]

/-- C10 witness: the frame property at a concrete store, with the
no-preexisting-file side condition discharged concretely. -/
theorem C10_delete_frame_witness :
    (∀ f ∈ emptyDb.files, f.month ≠ ivFeb10.start.mi) ∧
    ((∃ f ∈ (emptyDb.deleteInterval ivFeb10).1.files,
        ivFeb10.rng.startsWithin f.rng = true) ∧
      ((emptyDb.deleteInterval ivFeb10).1.files.filter
          (fun f => f.month ≠ ivFeb10.start.mi) =
        emptyDb.files.filter (fun f => f.month ≠ ivFeb10.start.mi)) ∧
      ((∀ f ∈ emptyDb.files, f.month ≠ ivFeb10.start.mi) →
        ∃ f ∈ (emptyDb.deleteInterval ivFeb10).1.files,
          f.month = ivFeb10.start.mi ∧ f.lines = [])) :=
  ⟨by decide, C10_delete_frame emptyDb ivFeb10⟩

/-! ### Commit preserves months, lines and the tag index -/

theorem commitDisk_fkey (db : Database) (d : Disk) :
    ((db.commitDisk d).2).files.map fkey = db.files.map fkey := by
  simp only [Database.commitDisk, List.map_map]
  exact List.map_congr_left (fun f _ => rfl)

theorem commitDisk_tagDb (db : Database) (d : Disk) :
    ((db.commitDisk d).2).tagDb = db.tagDb := rfl

/-- C5 (amended): adding an interval and deleting it again, then
committing, leaves every tag count unchanged (an absent tag reading as
count 0) and leaves the month-and-lines view of the datafile list
unchanged — except that an empty datafile for the interval's start month
has been inserted when the resolution had not found one. -/
theorem C5_add_delete_commit_roundtrip (db : Database) (iv : Interval) (d : Disk) :
    ((db.addInterval iv).deleteInterval iv).2 = none ∧
    (∀ tag,
      ((((db.addInterval iv).deleteInterval iv).1.commitDisk d).2).tagDb.count tag =
        db.tagDb.count tag) ∧
    (((((db.addInterval iv).deleteInterval iv).1.commitDisk d).2).files.map fkey =
        db.files.map fkey ∨
      ∃ i, ((((db.addInterval iv).deleteInterval iv).1.commitDisk d).2).files.map fkey =
        insertAt i (iv.start.mi, ([] : List Line)) (db.files.map fkey)) := by
  obtain ⟨A, F, B, hget, hF, hB, halt⟩ := getDatafile_structure iv db.files
  obtain ⟨hfiles1, htag1, hjournal1⟩ := add_core db iv A F B hget
  have hF1m : (F.addInterval iv).2.month = iv.start.mi :=
    (addInterval_month F iv).trans hF
  have hget2 : getDatafile iv (db.addInterval iv).files =
      (A.length, A ++ (F.addInterval iv).2 :: B) := by
    rw [hfiles1]
    exact getDatafile_of_cover iv A _ B hF1m hB
  obtain ⟨hnone, hfiles2, hjournal2, htag2⟩ :=
    delete_core (db.addInterval iv) iv A _ B hget2 hF1m hB
  have hmem : iv ∈ (F.addInterval iv).2.lines := by
    simp only [Datafile.addInterval]
    exact mem_insLine iv F.lines
  have hlines : (((F.addInterval iv).2).deleteInterval iv).2.lines = F.lines := by
    simp only [Datafile.deleteInterval, hmem, if_pos]
    simp only [Datafile.addInterval]
    exact eraseLine_insLine iv F.lines
  have hkey : fkey (((F.addInterval iv).2).deleteInterval iv).2 =
      (iv.start.mi, F.lines) := by
    simp [fkey, hlines, deleteInterval_month, addInterval_month, hF]
  refine ⟨hnone, ?_, ?_⟩
  · intro tag
    rw [commitDisk_tagDb, htag2, htag1]
    exact count_inc_dec_roundtrip iv.tags db.tagDb tag
  · rw [commitDisk_fkey, hfiles2]
    rcases halt with hdb | ⟨hdb, hnew⟩
    · left
      rw [hdb]
      simp only [List.map_append, List.map_cons, hkey]
      have : fkey F = (iv.start.mi, F.lines) := by simp [fkey, hF]
      rw [this]
    · right
      refine ⟨(A.map fkey).length, ?_⟩
      rw [hdb]
      have hFlines : F.lines = [] := by rw [hnew]; rfl
      rw [hFlines] at hkey
      simp only [List.map_append, List.map_cons, hkey]
      rw [insertAt_length_append]

/-- C5 counterexample: on the empty store, add-then-delete-then-commit
of a tagged interval leaves a store that is not identical to the
pre-state — a (now empty) datafile for the interval's month exists and
the tag snapshot has gained a zero-count entry — refuting strict
line-identity of the stores as claimed. -/
theorem C5_counterexample :
    ((((emptyDb.addInterval ivTagged).deleteInterval ivTagged).1.commitDisk
        []).2).files.length = 1 ∧
    emptyDb.files.length = 0 ∧
    ((((emptyDb.addInterval ivTagged).deleteInterval ivTagged).1.commitDisk
        []).2).tagDb.tagList = ["a"] ∧
    emptyDb.tagDb.tagList = [] := by
  decide

/-! ### The tag rebuild (claim C6) -/

/-- C6: with a missing or unparseable sidecar, the rebuilt tag index
gives every tag a count equal to the number of iterated intervals whose
tag set contains it, and its key snapshot is exactly the set of tags
occurring in those intervals.  The tag list of each interval is free of
duplicates (in the source it is a `std::set`). -/
theorem C6_tag_rebuild (db : Database)
    (h : ∀ l ∈ db.iterLines, l.tags.Nodup) :
    (∀ tag, (db.initializeTagDatabase none).tagDb.count tag =
      db.iterLines.countP (fun l => decide (tag ∈ l.tags))) ∧
    (∀ tag, tag ∈ (db.initializeTagDatabase none).tagDb.tagList ↔
      ∃ l ∈ db.iterLines, tag ∈ l.tags) := by
  constructor
  · intro tag
    simp only [Database.initializeTagDatabase, rebuildTagDb]
    rw [count_rebuild_aux, sum_count_eq_countP db.iterLines tag h]
    simp [TagInfoDatabase.count, lookupCount]
  · intro tag
    simp only [Database.initializeTagDatabase, rebuildTagDb]
    rw [mem_tagList_rebuild_aux]
    simp [TagInfoDatabase.tagList]

/-- C6 witness: a concrete two-file store rebuilt from a missing
sidecar, with the per-interval duplicate-freeness discharged
concretely. -/
theorem C6_tag_rebuild_witness :
    (∀ l ∈ c6db.iterLines, l.tags.Nodup) ∧
    (c6db.initializeTagDatabase none).tagDb.count "b" =
      c6db.iterLines.countP (fun l => decide ("b" ∈ l.tags)) :=
  ⟨by decide, (C6_tag_rebuild c6db (by decide)).1 "b"⟩

/-! ### The resolution characterization (claim C4) -/

theorem newestFire_eq_none (r : Rng) (l : List Datafile)
    (h : ∀ g ∈ l, fires r g = false) : newestFire r l = none := by
  induction l with
  | nil => rfl
  | cons f rest ih =>
    have hrest : newestFire r rest = none :=
      ih (fun g hg => h g (by simp [hg]))
    simp [newestFire, hrest, h f (by simp)]

theorem newestFire_append (r : Rng) (A : List Datafile) (F : Datafile)
    (B : List Datafile) (hF : fires r F = true)
    (hB : ∀ g ∈ B, fires r g = false) :
    newestFire r (A ++ F :: B) = some A.length := by
  induction A with
  | nil =>
    simp [newestFire, newestFire_eq_none r B hB, hF]
  | cons a A ih =>
    simp [newestFire, ih]

/-- C4 (amended): the resolution scan equals the declarative rule with
the strict comparison — the position of the newest file containing the
start; or the position immediately after the newest file whose range end
is strictly before the start; or the front when no file qualifies. -/
theorem C4_findDatafile_characterization (r : Rng) (files : List Datafile) :
    findDatafile r files = findDatafileDecl r files := by
  rcases findDatafile_spec r files with ⟨h0, hall⟩ |
    ⟨A, F, B, hl, hv, hF, hB⟩ | ⟨A, F, B, hl, hv, hF1, hF2, hB⟩
  · rw [h0, findDatafileDecl, newestFire_eq_none r files hall]
  · have hfire : fires r F = true := by simp [fires, hF]
    rw [hv, findDatafileDecl, hl, newestFire_append r A F B hfire hB]
    simp only [getD_length_append, hF, if_pos]
  · have hfire : fires r F = true := by simp [fires, hF2]
    rw [hv, findDatafileDecl, hl, newestFire_append r A F B hfire hB]
    simp only [getD_length_append, hF1]
    simp

/-- C4 counterexample: with only the 2016-01 datafile present and a
range starting exactly at 2016-02-01T00:00:00, the newest (only) file
has range end ≤ the start — the claimed rule with its non-strict
comparison returns the position after it, 1 — yet the code returns the
front, 0, because its comparison is strict. -/
theorem C4_counterexample :
    findDatafile c4Rng c4Files = 0 ∧
    findDatafileClaimed c4Rng c4Files = 1 ∧
    dle ((c4Files.getD 0 (newDatafile 0)).rng).stop c4Rng.start = true ∧
    c4Rng.startsWithin ((c4Files.getD 0 (newDatafile 0)).rng) = false := by
  decide

/-! ### Month segmentation (claim C7) -/

theorem filter_lt_range' (N s K : Nat) :
    (List.range' s N).filter (fun m => decide (m < s + K)) =
      List.range' s (min K N) := by
  induction N generalizing s K with
  | zero => simp
  | succ N ih =>
    rw [List.range'_succ s N 1, List.filter_cons]
    by_cases hK : 0 < K
    · have hs : (decide (s < s + K)) = true := by simp; omega
      rw [hs]
      simp only [if_true]
      have harith : s + K = (s + 1) + (K - 1) := by omega
      simp only [harith]
      rw [ih (s + 1) (K - 1)]
      have hmin : min K (N + 1) = min (K - 1) N + 1 := by omega
      rw [hmin, List.range'_succ]
    · have hK0 : K = 0 := by omega
      subst hK0
      have hs : (decide (s < s + 0)) = true ↔ False := by simp
      simp only [Nat.add_zero] at *
      rw [if_neg (by simp)]
      have hnil : (List.range' (s + 1) N).filter (fun m => decide (m < s)) = [] := by
        rw [List.filter_eq_nil_iff]
        intro a ha
        have := List.mem_range'_1.mp ha
        simp
        omega
      rw [hnil]
      simp

/-- C7 (amended): `segmentRange` returns exactly the month ranges of
the consecutive months from the start's month, `segCount` many of them;
every returned segment is one calendar month (hence they are contiguous
and pairwise non-overlapping), every returned segment intersects the
original range in the source's sense, the first month opens at or before
the range start and the last closes at or after the effective end — the
current instant when the range end is the open sentinel.  (When the
current instant falls exactly on a month boundary the final segment of
an open range lies beyond the materialized range; see the
counterexample.) -/
theorem C7_segmentRange_amended (now : Datetime) (r : Rng)
    (hval : (r.stop = epoch0 ∧ dle r.start now = true) ∨
            (r.stop ≠ epoch0 ∧ dlt r.start r.stop = true)) :
    segmentRange now r = (List.range' r.start.mi (segCount now r)).map monthRng ∧
    1 ≤ segCount now r ∧
    (∀ s ∈ segmentRange now r, ∃ m, s = monthRng m) ∧
    (∀ s ∈ segmentRange now r, r.intersects s = true) ∧
    dle ⟨r.start.mi, 0⟩ r.start = true ∧
    dle (if r.stop = epoch0 then now else r.stop)
      ⟨r.start.mi + segCount now r, 0⟩ = true := by
  have hmain : segmentRange now r =
      (List.range' r.start.mi (segCount now r)).map monthRng := by
    rcases hval with ⟨hz, hle⟩ | ⟨hz, hlt⟩
    · have hsn : r.start.mi ≤ now.mi := by
        rcases (dle_iff r.start now).mp hle with h | h
        · omega
        · omega
      simp only [segmentRange, hz, if_pos, segCount]
      apply List.filter_eq_self.mpr
      intro seg hseg
      obtain ⟨m, hm, rfl⟩ := List.mem_map.mp hseg
      have hsm := (List.mem_range'_1.mp hm).1
      have h1 : dlt r.start ⟨m + 1, 0⟩ = true := by
        rw [dlt_iff]
        dsimp only
        omega
      simp [Rng.intersects, Rng.isOpen, monthRng, h1, hz]
    · have harith : r.start.mi < r.stop.mi ∨
          (r.start.mi = r.stop.mi ∧ r.start.off < r.stop.off) :=
        (dlt_iff r.start r.stop).mp hlt
      simp only [segmentRange, if_neg hz]
      rw [List.filter_map]
      have hpe : ∀ m ∈ List.range' r.start.mi (r.stop.mi + 1 - r.start.mi),
          ((fun seg => r.intersects seg) ∘ monthRng) m =
            (fun m => decide (m < r.start.mi + segCount now r)) m := by
        intro m hm
        have hsm := List.mem_range'_1.mp hm
        have h1 : dlt r.start ⟨m + 1, 0⟩ = true := by
          rw [dlt_iff]
          dsimp only
          omega
        simp only [Function.comp_apply, Rng.intersects, Rng.isOpen, monthRng,
          h1, Bool.or_true, Bool.true_and]
        have h2 : (decide (r.stop = epoch0)) = false := by simp [hz]
        rw [h2]
        simp only [Bool.false_or]
        rw [Bool.eq_iff_iff, dlt_iff]
        simp only [decide_eq_true_eq, segCount, if_neg hz]
        by_cases hoff : 0 < r.stop.off
        · simp only [if_pos hoff]
          omega
        · simp only [if_neg hoff]
          omega
      rw [List.filter_congr hpe, filter_lt_range']
      have hKN : min (segCount now r) (r.stop.mi + 1 - r.start.mi) =
          segCount now r := by
        simp only [segCount, if_neg hz]
        by_cases hoff : 0 < r.stop.off
        · simp only [if_pos hoff]
          omega
        · simp only [if_neg hoff]
          omega
      rw [hKN]
  refine ⟨hmain, ?_, ?_, ?_, ?_, ?_⟩
  · rcases hval with ⟨hz, hle⟩ | ⟨hz, hlt⟩
    · have := (dle_iff r.start now).mp hle
      simp only [segCount, hz, if_pos]
      omega
    · have := (dlt_iff r.start r.stop).mp hlt
      simp only [segCount, if_neg hz]
      by_cases hoff : 0 < r.stop.off
      · simp only [if_pos hoff]; omega
      · simp only [if_neg hoff]; omega
  · intro seg hseg
    rw [hmain] at hseg
    obtain ⟨m, _, rfl⟩ := List.mem_map.mp hseg
    exact ⟨m, rfl⟩
  · intro seg hseg
    simp only [segmentRange] at hseg
    exact (List.mem_filter.mp hseg).2
  · rw [dle_iff]
    dsimp only
    omega
  · rcases hval with ⟨hz, hle⟩ | ⟨hz, hlt⟩
    · have := (dle_iff r.start now).mp hle
      simp only [segCount, hz, if_pos, dle_iff]
      omega
    · have := (dlt_iff r.start r.stop).mp hlt
      simp only [segCount, if_neg hz, dle_iff]
      by_cases hoff : 0 < r.stop.off
      · simp only [if_pos hoff]
        omega
      · simp only [if_neg hoff]
        omega

/-- C7 counterexample: for an open range starting inside 2016-01 with
the current instant exactly at the 2016-02 month boundary, the code
returns the 2016-02 segment as well, and that segment does not intersect
the range materialized to `[start, now)` — so the union of the segments
does not intersect the effective range exactly, refuting the claim as
stated. -/
theorem C7_counterexample :
    segmentRange c7now c7r = [monthRng 24192, monthRng 24193] ∧
    Rng.intersects ⟨c7r.start, c7now⟩ (monthRng 24193) = false := by
  decide

/-- C7 witness: the amended characterization at a concrete closed range
crossing two month boundaries. -/
theorem C7_segmentRange_amended_witness :
    ((c7wr.stop = epoch0 ∧ dle c7wr.start c7wnow = true) ∨
      (c7wr.stop ≠ epoch0 ∧ dlt c7wr.start c7wr.stop = true)) ∧
    segmentRange c7wnow c7wr =
      (List.range' c7wr.start.mi (segCount c7wnow c7wr)).map monthRng :=
  ⟨by decide, (C7_segmentRange_amended c7wnow c7wr (by decide)).1⟩

/-! ### Month-boundary misrouting (claims C2 and C3) -/

/-- C3 evaluation: adding a January interval and then an interval that
starts exactly at the February month boundary leaves the datafile list
out of ascending month order, and one further mid-February add creates a
second datafile for the same month — refuting both halves of the
invariant in-session. -/
theorem C3_invariant_broken :
    c3db.files.map (fun f => f.month) = [24193, 24192] ∧
    ¬ List.Sorted (· ≤ ·) (c3db.files.map (fun f => f.month)) ∧
    c3db3.files.map (fun f => f.month) = [24193, 24192, 24193] ∧
    ¬ (c3db3.files.map (fun f => f.month)).Nodup := by
  refine ⟨by decide, ?_, by decide, by decide⟩
  intro hs
  rw [show c3db.files.map (fun f => f.month) = [24193, 24192] from by decide] at hs
  have h2 : (24193 : Nat) ≤ 24192 :=
    List.rel_of_sorted_cons hs 24192 (by simp)
  omega

/-- C2 evaluation: the three-interval sequence `c2S` added to an empty
store produces two in-memory datafiles named 2016-02; committing writes
both to the same file, the second overwriting the first, so the reopened
store iterates only 2 lines instead of 3. -/
theorem C2_reopen_loses_line :
    c2S.length = 3 ∧
    (reopen ((c2final.commitDisk []).1)).iterLines.length = 2 ∧
    (reopen ((c2final.commitDisk []).1)).revIterLines.length = 2 := by
  decide

end Spec

end Timew
